import Mathlib

/-!
Verification of the timrtiger tag distribution and measurement runtime.

Shallow embedding of src/timrtiger/include/Iterators.h and TimeTagger.h.
C++ uint64 arithmetic is modelled on Nat with explicit reduction modulo 2 ^ 64
wherever overflow semantics matter.  Components whose implementation is not in
the sources (pimpl bodies, pure virtual producer methods, the FastBinning
constructor body) are modelled from the specification; each such definition
carries a doc comment starting with "Modelled from the spec:".
-/

namespace Timrtiger

/-- The seven division variants of FastBinning (Iterators.h, enum class Mode). -/
inductive Mode where
  | ConstZero
  | Dividend
  | PowerOfTwo
  | FixedPoint_32
  | FixedPoint_64
  | Divide_32
  | Divide_64
  deriving DecidableEq

/-- The FastBinning state (Iterators.h lines 123-127): divisor, max_duration,
factor and bits_shift are uint64 / int fields, mode is the sealed variant. -/
structure FastBinning where
  divisor : Nat
  max_duration : Nat
  factor : Nat
  bits_shift : Nat
  mode : Mode

/-- FastBinning::getMode (Iterators.h line 94). -/
def FastBinning.getMode (fb : FastBinning) : Mode := fb.mode

/-- FastBinning::MulHigh, generic fallback path (Iterators.h lines 104-119):
32-bit limb decomposition with an explicit carry bit.  Every C++ uint64
operation is reduced modulo 2 ^ 64; uint32_t casts are reductions modulo
2 ^ 32; right shifts on uint64 are modelled with Nat shiftRight. -/
def MulHigh (a b : Nat) : Nat :=
  let a_lo : Nat := a % 2 ^ 32
  let a_hi : Nat := a >>> 32
  let b_lo : Nat := b % 2 ^ 32
  let b_hi : Nat := b >>> 32
  let a_x_b_hi : Nat := (a_hi * b_hi) % 2 ^ 64
  let a_x_b_mid : Nat := (a_hi * b_lo) % 2 ^ 64
  let b_x_a_mid : Nat := (b_hi * a_lo) % 2 ^ 64
  let a_x_b_lo : Nat := (a_lo * b_lo) % 2 ^ 64
  let carry_bit : Nat := ((a_x_b_mid % 2 ^ 32 + b_x_a_mid % 2 ^ 32 + (a_x_b_lo >>> 32)) % 2 ^ 64) >>> 32
  (a_x_b_hi + (a_x_b_mid >>> 32) + (b_x_a_mid >>> 32) + carry_bit) % 2 ^ 64

/-- FastBinning::divide with the compile-time mode parameter (Iterators.h
lines 63-92): a switch on the template mode.  The entry assertions
(duration less or equal max_duration, mode equals the stored mode) appear as
hypotheses of the theorems about this function. -/
def FastBinning.divide (mode : Mode) (fb : FastBinning) (duration : Nat) : Nat :=
  match mode with
  | .ConstZero => 0
  | .Dividend => duration
  | .PowerOfTwo => duration >>> fb.bits_shift
  | .FixedPoint_32 => ((duration * fb.factor) % 2 ^ 64) >>> 32
  | .FixedPoint_64 => MulHigh duration fb.factor
  | .Divide_32 => (duration % 2 ^ 32) / (fb.divisor % 2 ^ 32)
  | .Divide_64 => duration / fb.divisor

/-- BINNING_TEMPLATE_HELPER macro (Iterators.h lines 131-154): a switch on
binner.getMode() that instantiates fun_name with the matching compile-time
mode value. -/
def binningTemplateHelper {α : Type} (fun_name : Mode → α) (binner : FastBinning) : α :=
  match binner.getMode with
  | .ConstZero => fun_name .ConstZero
  | .Dividend => fun_name .Dividend
  | .PowerOfTwo => fun_name .PowerOfTwo
  | .FixedPoint_32 => fun_name .FixedPoint_32
  | .FixedPoint_64 => fun_name .FixedPoint_64
  | .Divide_32 => fun_name .Divide_32
  | .Divide_64 => fun_name .Divide_64

/-- Shift amount of a power-of-two divisor: for d = 2 ^ k with k below fuel it
returns k (fuel 64 covers every uint64 divisor). -/
def findShift : Nat → Nat → Nat
  | 0, _ => 0
  | fuel + 1, d => if d ≤ 1 then 0 else findShift fuel (d / 2) + 1

/-- Fixed-point factor: the ceiling of N / d. -/
def fpFactor (N d : Nat) : Nat := (N + d - 1) / d

/-- Exactness condition for fixed-point division by multiplication: with
r = f * d - N, the error term q * r + s * f stays below N for every
duration up to max (q up to max / d, remainder s up to d - 1). -/
def fpExactCond (N d max f : Nat) : Prop := max / d * (f * d - N) + (d - 1) * f < N

instance (N d max f : Nat) : Decidable (fpExactCond N d max f) := by
  unfold fpExactCond; infer_instance

/-- Modelled from the spec: the FastBinning constructor body is only declared in
the sources (Iterators.h line 61).  Spec 4.1 selects, in table order: ConstZero
when divisor exceeds max_duration; Dividend when divisor is 1; PowerOfTwo when
the divisor is a power of two; FixedPoint_32 when the 32-bit fixed-point factor
fits in 32 bits, its product with max_duration fits in 64 bits and the
fixed-point evaluation is exact on the range; FixedPoint_64 when the 64-bit
fixed-point evaluation is exact on the range; Divide_32 when both operands fit
in 32 bits; Divide_64 as fallback.  Exactness is the spec's contract for every
selected variant and is checked through the sufficient condition fpExactCond. -/
def FastBinning.construct (divisor max_duration : Nat) : FastBinning :=
  if max_duration < divisor then
    ⟨divisor, max_duration, 0, 0, .ConstZero⟩
  else if divisor = 1 then
    ⟨divisor, max_duration, 0, 0, .Dividend⟩
  else if divisor = 2 ^ findShift 64 divisor then
    ⟨divisor, max_duration, 0, findShift 64 divisor, .PowerOfTwo⟩
  else if fpFactor (2 ^ 32) divisor < 2 ^ 32 ∧ fpFactor (2 ^ 32) divisor * max_duration < 2 ^ 64
      ∧ fpExactCond (2 ^ 32) divisor max_duration (fpFactor (2 ^ 32) divisor) then
    ⟨divisor, max_duration, fpFactor (2 ^ 32) divisor, 32, .FixedPoint_32⟩
  else if fpExactCond (2 ^ 64) divisor max_duration (fpFactor (2 ^ 64) divisor) then
    ⟨divisor, max_duration, fpFactor (2 ^ 64) divisor, 0, .FixedPoint_64⟩
  else if divisor < 2 ^ 32 ∧ max_duration < 2 ^ 32 then
    ⟨divisor, max_duration, 0, 0, .Divide_32⟩
  else
    ⟨divisor, max_duration, 0, 0, .Divide_64⟩

lemma fpFactor_mul_ge (N d : Nat) (hd : 0 < d) : N ≤ fpFactor N d * d := by
  have h := Nat.div_add_mod (N + d - 1) d
  have hm : (N + d - 1) % d < d := Nat.mod_lt _ hd
  have hcomm : fpFactor N d * d = d * ((N + d - 1) / d) := by unfold fpFactor; ring
  rw [hcomm]
  omega

lemma fpFactor_lt (d : Nat) (h2 : 2 ≤ d) (hd64 : d < 2 ^ 64) :
    fpFactor (2 ^ 64) d < 2 ^ 64 := by
  unfold fpFactor
  rw [Nat.div_lt_iff_lt_mul (by omega)]
  have hmul : 2 ^ 64 * 2 ≤ 2 ^ 64 * d := Nat.mul_le_mul_left _ h2
  omega

/-- Core fixed-point exactness: if f * d = N + r and the worst-case error term
is below N, multiplying by f and dividing by N computes division by d exactly
on the whole range. -/
lemma fixedPoint_exact (N d f r max x : Nat) (hd : 0 < d) (hN : 0 < N)
    (hfd : f * d = N + r) (hx : x ≤ max)
    (hcond : max / d * r + (d - 1) * f < N) :
    x * f / N = x / d := by
  have hq : x / d ≤ max / d := Nat.div_le_div_right hx
  have hs : x % d ≤ d - 1 := by
    have := Nat.mod_lt x hd
    omega
  have hlt : x / d * r + x % d * f < N := by
    have h1 : x / d * r ≤ max / d * r := Nat.mul_le_mul_right r hq
    have h2 : x % d * f ≤ (d - 1) * f := Nat.mul_le_mul_right f hs
    omega
  have hdecomp : x * f = (x / d * r + x % d * f) + N * (x / d) := by
    have h1 : d * (x / d) + x % d = x := Nat.div_add_mod x d
    calc x * f = (d * (x / d) + x % d) * f := by rw [h1]
      _ = x / d * (f * d) + x % d * f := by ring
      _ = x / d * (N + r) + x % d * f := by rw [hfd]
      _ = (x / d * r + x % d * f) + N * (x / d) := by ring
  rw [hdecomp, Nat.add_mul_div_left _ _ hN, Nat.div_eq_of_lt hlt, Nat.zero_add]

/-- High 64-bit word of a 128-bit product via 32-bit limbs and a carry bit. -/
lemma high_word_formula (A B C D : Nat) (hA : A < 2 ^ 32) (hB : B < 2 ^ 32)
    (hC : C < 2 ^ 32) (hD : D < 2 ^ 32) :
    A * C + A * D / 2 ^ 32 + C * B / 2 ^ 32 +
      (A * D % 2 ^ 32 + C * B % 2 ^ 32 + B * D / 2 ^ 32) / 2 ^ 32
      = (A * 2 ^ 32 + B) * (C * 2 ^ 32 + D) / 2 ^ 64 := by
  have hprod : (A * 2 ^ 32 + B) * (C * 2 ^ 32 + D)
      = A * C * 2 ^ 64 + (A * D) * 2 ^ 32 + (C * B) * 2 ^ 32 + B * D := by ring
  rw [hprod]
  have h1 : A * D ≤ (2 ^ 32 - 1) * (2 ^ 32 - 1) :=
    Nat.mul_le_mul (by omega) (by omega)
  have h2 : C * B ≤ (2 ^ 32 - 1) * (2 ^ 32 - 1) :=
    Nat.mul_le_mul (by omega) (by omega)
  have h3 : B * D ≤ (2 ^ 32 - 1) * (2 ^ 32 - 1) :=
    Nat.mul_le_mul (by omega) (by omega)
  generalize A * C = P at *
  generalize A * D = Q at *
  generalize C * B = R at *
  generalize B * D = S at *
  omega

/-- MulHigh computes the upper 64 bits of the full 128-bit product for any two
uint64 operands. -/
lemma mulHigh_spec (a b : Nat) (ha : a < 2 ^ 64) (hb : b < 2 ^ 64) :
    MulHigh a b = a * b / 2 ^ 64 := by
  have hA : a / 2 ^ 32 < 2 ^ 32 := by omega
  have hB : a % 2 ^ 32 < 2 ^ 32 := by omega
  have hC : b / 2 ^ 32 < 2 ^ 32 := by omega
  have hD : b % 2 ^ 32 < 2 ^ 32 := by omega
  have hbig : (2 ^ 32 - 1) * (2 ^ 32 - 1) < 2 ^ 64 := by norm_num
  have hhi : a / 2 ^ 32 * (b / 2 ^ 32) < 2 ^ 64 :=
    lt_of_le_of_lt (Nat.mul_le_mul (by omega) (by omega)) hbig
  have hmid1 : a / 2 ^ 32 * (b % 2 ^ 32) < 2 ^ 64 :=
    lt_of_le_of_lt (Nat.mul_le_mul (by omega) (by omega)) hbig
  have hmid2 : b / 2 ^ 32 * (a % 2 ^ 32) < 2 ^ 64 :=
    lt_of_le_of_lt (Nat.mul_le_mul (by omega) (by omega)) hbig
  have hlo : a % 2 ^ 32 * (b % 2 ^ 32) < 2 ^ 64 :=
    lt_of_le_of_lt (Nat.mul_le_mul (by omega) (by omega)) hbig
  have hq0 : a / 2 ^ 32 * (b / 2 ^ 32) ≤ (2 ^ 32 - 1) * (2 ^ 32 - 1) :=
    Nat.mul_le_mul (by omega) (by omega)
  have hq1 : a / 2 ^ 32 * (b % 2 ^ 32) ≤ (2 ^ 32 - 1) * (2 ^ 32 - 1) :=
    Nat.mul_le_mul (by omega) (by omega)
  have hq2 : b / 2 ^ 32 * (a % 2 ^ 32) ≤ (2 ^ 32 - 1) * (2 ^ 32 - 1) :=
    Nat.mul_le_mul (by omega) (by omega)
  have hq3 : a % 2 ^ 32 * (b % 2 ^ 32) ≤ (2 ^ 32 - 1) * (2 ^ 32 - 1) :=
    Nat.mul_le_mul (by omega) (by omega)
  unfold MulHigh
  simp only [Nat.shiftRight_eq_div_pow]
  rw [Nat.mod_eq_of_lt hhi, Nat.mod_eq_of_lt hmid1, Nat.mod_eq_of_lt hmid2,
    Nat.mod_eq_of_lt hlo]
  rw [Nat.mod_eq_of_lt (a := a / 2 ^ 32 * (b % 2 ^ 32) % 2 ^ 32
      + b / 2 ^ 32 * (a % 2 ^ 32) % 2 ^ 32 + a % 2 ^ 32 * (b % 2 ^ 32) / 2 ^ 32)
    (by omega)]
  rw [Nat.mod_eq_of_lt (by omega)]
  rw [high_word_formula (a / 2 ^ 32) (a % 2 ^ 32) (b / 2 ^ 32) (b % 2 ^ 32) hA hB hC hD]
  have e1 : a / 2 ^ 32 * 2 ^ 32 + a % 2 ^ 32 = a := by omega
  have e2 : b / 2 ^ 32 * 2 ^ 32 + b % 2 ^ 32 = b := by omega
  rw [e1, e2]

/-- Claim C9: the generic fallback of FastBinning::MulHigh (32-bit limb
decomposition with an explicit carry bit, all intermediate operations in
64-bit arithmetic modulo 2 ^ 64) returns exactly the upper 64 bits of the full
128-bit product for all uint64 inputs, agreeing with the wide-multiplication
paths. -/
theorem mulHigh_eq_high_word (a b : Nat) (ha : a < 2 ^ 64) (hb : b < 2 ^ 64) :
    MulHigh a b = (a * b) >>> 64 := by
  rw [Nat.shiftRight_eq_div_pow]
  exact mulHigh_spec a b ha hb

theorem mulHigh_eq_high_word_witness :
    (2 ^ 40 + 7 : Nat) < 2 ^ 64 ∧ (2 ^ 40 + 9 : Nat) < 2 ^ 64 ∧
      MulHigh (2 ^ 40 + 7) (2 ^ 40 + 9) = ((2 ^ 40 + 7) * (2 ^ 40 + 9)) >>> 64 :=
  ⟨by norm_num, by norm_num,
    mulHigh_eq_high_word (2 ^ 40 + 7) (2 ^ 40 + 9) (by norm_num) (by norm_num)⟩

/-- Claim C1: for every FastBinning constructed from divisor and max_duration and
every duration up to max_duration, the selected variant's divide returns the
exact integer quotient duration / divisor, so the debug assertion comparing the
variant's result with the reference 64-bit division never fails for any of the
seven variants under its selection condition. -/
theorem fastBinning_divide_exact (d max x : Nat) (hd : 0 < d) (hmax : max < 2 ^ 64)
    (hx : x ≤ max) :
    FastBinning.divide (FastBinning.construct d max).getMode
      (FastBinning.construct d max) x = x / d := by
  unfold FastBinning.construct
  split_ifs with h1 h2 h3 h4 h5 h6
  · simp only [FastBinning.getMode, FastBinning.divide]
    exact (Nat.div_eq_of_lt (lt_of_le_of_lt hx h1)).symm
  · simp only [FastBinning.getMode, FastBinning.divide]
    rw [h2, Nat.div_one]
  · simp only [FastBinning.getMode, FastBinning.divide]
    rw [Nat.shiftRight_eq_div_pow]
    conv_rhs => rw [h3]
  · simp only [FastBinning.getMode, FastBinning.divide]
    obtain ⟨hf32, hfit, hex⟩ := h4
    have hxle : x * fpFactor (2 ^ 32) d ≤ fpFactor (2 ^ 32) d * max := by
      rw [mul_comm]
      exact Nat.mul_le_mul_left _ hx
    rw [Nat.mod_eq_of_lt (lt_of_le_of_lt hxle hfit), Nat.shiftRight_eq_div_pow]
    have hge := fpFactor_mul_ge (2 ^ 32) d hd
    refine fixedPoint_exact (2 ^ 32) d (fpFactor (2 ^ 32) d)
      (fpFactor (2 ^ 32) d * d - 2 ^ 32) max x hd (by norm_num) (by omega) hx ?_
    unfold fpExactCond at hex
    exact hex
  · simp only [FastBinning.getMode, FastBinning.divide]
    have hd2 : 2 ≤ d := by omega
    have hd64 : d < 2 ^ 64 := by omega
    have hflt := fpFactor_lt d hd2 hd64
    rw [mulHigh_spec x (fpFactor (2 ^ 64) d) (lt_of_le_of_lt hx hmax) hflt]
    have hge := fpFactor_mul_ge (2 ^ 64) d hd
    refine fixedPoint_exact (2 ^ 64) d (fpFactor (2 ^ 64) d)
      (fpFactor (2 ^ 64) d * d - 2 ^ 64) max x hd (by norm_num) (by omega) hx ?_
    unfold fpExactCond at h5
    exact h5
  · simp only [FastBinning.getMode, FastBinning.divide]
    rw [Nat.mod_eq_of_lt (lt_of_le_of_lt hx h6.2), Nat.mod_eq_of_lt h6.1]
  · simp only [FastBinning.getMode, FastBinning.divide]

theorem fastBinning_divide_exact_witness :
    0 < (1000 : Nat) ∧ (10 ^ 12 : Nat) < 2 ^ 64 ∧ (999999 : Nat) ≤ 10 ^ 12 ∧
      FastBinning.divide (FastBinning.construct 1000 (10 ^ 12)).getMode
        (FastBinning.construct 1000 (10 ^ 12)) 999999 = 999999 / 1000 :=
  ⟨by norm_num, by norm_num, by norm_num,
    fastBinning_divide_exact 1000 (10 ^ 12) 999999 (by norm_num) (by norm_num)
      (by norm_num)⟩

/-- Claim C2: the constructor selects the variant according to the spec's table on
the four literal cases: divisor 1 gives Dividend, 1024 gives PowerOfTwo, 1000
gives FixedPoint_64, and a divisor above max_duration gives ConstZero, all with
max_duration 10 ^ 12 and observed through getMode. -/
theorem fastBinning_mode_selection :
    (FastBinning.construct 1 (10 ^ 12)).getMode = Mode.Dividend ∧
      (FastBinning.construct 1024 (10 ^ 12)).getMode = Mode.PowerOfTwo ∧
      (FastBinning.construct 1000 (10 ^ 12)).getMode = Mode.FixedPoint_64 ∧
      (FastBinning.construct (10 ^ 15) (10 ^ 12)).getMode = Mode.ConstZero :=
  ⟨by decide, by decide, by decide, by decide⟩

/-- Claim C10: dispatch through the BINNING_TEMPLATE_HELPER switch instantiates
divide with a template mode equal to the stored mode returned by getMode, hence
the entry assertion comparing the template mode with the stored mode holds on
every dispatch path, for each of the seven Mode values. -/
theorem binning_template_helper_mode (fb : FastBinning) (x : Nat) :
    binningTemplateHelper (fun m => FastBinning.divide m fb x) fb
        = FastBinning.divide fb.getMode fb x ∧
      binningTemplateHelper (fun m => decide (m = fb.getMode)) fb = true := by
  unfold binningTemplateHelper
  unfold FastBinning.getMode
  cases hm : fb.mode <;> simp [hm]

/-- Modelled from the spec: the Counter ring's atomic polling state.
CounterImpl is not in the sources; Iterators.h lines 425-489 only declare the
interface and its exactly-once contract.  Completed bins are identified by
their completion sequence number since the last clear; unread holds the
completed bins not yet returned (ring pressure evicts the oldest once more
than n_values are pending); dropped collects the evicted bins; returns records
the bins handed out by each getDataObject(remove=true) call. -/
structure RingPollState where
  next_id : Nat
  unread : List Nat
  dropped : List Nat
  returns : List (List Nat)

/-- An observable step of the polled counter: a bin completes, or the client
calls getDataObject with remove set. -/
inductive RingOp where
  | complete
  | poll

/-- Modelled from the spec: clear resets the ring state. -/
def ringClear : RingPollState := ⟨0, [], [], []⟩

/-- Modelled from the spec: bin completion appends the next bin and evicts the
oldest pending bin once more than n_values are pending; getDataObject with
remove set returns every pending completed bin and advances the read cursor
past them so the next call only returns newer bins. -/
def ringStep (n_values : Nat) (s : RingPollState) : RingOp → RingPollState
  | .complete =>
    let u := s.unread ++ [s.next_id]
    if n_values < u.length then
      ⟨s.next_id + 1, u.drop 1, s.dropped ++ u.take 1, s.returns⟩
    else
      ⟨s.next_id + 1, u, s.dropped, s.returns⟩
  | .poll => ⟨s.next_id, [], s.dropped, s.returns ++ [s.unread]⟩

def ringRun (n_values : Nat) (ops : List RingOp) : RingPollState :=
  ops.foldl (ringStep n_values) ringClear

/-- Ring polling invariant: every completed bin sits in exactly one of the
returned snapshots, the dropped list or the pending buffer, and the returned
plus pending bins are strictly increasing (later polls only see newer bins). -/
def RingInv (s : RingPollState) : Prop :=
  (s.returns.join ++ s.dropped ++ s.unread).Perm (List.range s.next_id) ∧
    List.Sorted (· < ·) (s.returns.join ++ s.unread) ∧
    ∀ y ∈ s.returns.join ++ s.unread, y < s.next_id

lemma ringInv_step (nv : Nat) (s : RingPollState) (op : RingOp) (h : RingInv s) :
    RingInv (ringStep nv s op) := by
  obtain ⟨hperm, hsort, hlt⟩ := h
  obtain ⟨n, u, dr, rs⟩ := s
  simp only at hperm hsort hlt
  cases op with
  | complete =>
    have hsort2 : List.Sorted (· < ·) (rs.join ++ (u ++ [n])) := by
      rw [← List.append_assoc]
      refine List.pairwise_append.2 ⟨hsort, List.sorted_singleton n, ?_⟩
      intro a ha b hb
      rw [List.mem_singleton] at hb
      subst hb
      exact hlt a ha
    have hperm2 : (rs.join ++ (dr ++ (u ++ [n]))).Perm (List.range (n + 1)) := by
      have h2 := hperm.append_right [n]
      rw [List.range_succ]
      simpa [List.append_assoc] using h2
    have hmem2 : ∀ y ∈ rs.join ++ (u ++ [n]), y < n + 1 := by
      intro y hy
      simp only [List.mem_append, List.mem_singleton] at hy
      rcases hy with hy | hy | hy
      · exact Nat.lt_succ_of_lt (hlt y (List.mem_append.2 (Or.inl hy)))
      · exact Nat.lt_succ_of_lt (hlt y (List.mem_append.2 (Or.inr hy)))
      · omega
    by_cases hlen : nv < u.length + 1
    · have hstep : ringStep nv ⟨n, u, dr, rs⟩ RingOp.complete
          = ⟨n + 1, (u ++ [n]).drop 1, dr ++ (u ++ [n]).take 1, rs⟩ := by
        simp [ringStep, hlen]
      rw [hstep]
      have hsub : List.Sublist (rs.join ++ (u ++ [n]).drop 1) (rs.join ++ (u ++ [n])) :=
        List.Sublist.append_left (List.drop_sublist 1 (u ++ [n])) rs.join
      refine ⟨?_, List.Pairwise.sublist hsub hsort2, fun y hy => hmem2 y (hsub.mem hy)⟩
      show (rs.join ++ (dr ++ (u ++ [n]).take 1) ++ (u ++ [n]).drop 1).Perm
        (List.range (n + 1))
      have heq : rs.join ++ (dr ++ (u ++ [n]).take 1) ++ (u ++ [n]).drop 1
          = rs.join ++ (dr ++ (u ++ [n])) := by
        simp only [List.append_assoc, List.take_append_drop]
      rw [heq]
      exact hperm2
    · have hstep : ringStep nv ⟨n, u, dr, rs⟩ RingOp.complete
          = ⟨n + 1, u ++ [n], dr, rs⟩ := by
        simp [ringStep, hlen]
      rw [hstep]
      refine ⟨?_, hsort2, hmem2⟩
      show (rs.join ++ dr ++ (u ++ [n])).Perm (List.range (n + 1))
      simpa [List.append_assoc] using hperm2
  | poll =>
    have hstep : ringStep nv ⟨n, u, dr, rs⟩ RingOp.poll = ⟨n, [], dr, rs ++ [u]⟩ := rfl
    rw [hstep]
    have hjoin : (rs ++ [u]).join = rs.join ++ u := by
      simp
    refine ⟨?_, ?_, ?_⟩
    · show ((rs ++ [u]).join ++ dr ++ []).Perm (List.range n)
      rw [hjoin, List.append_nil]
      have h3 : (rs.join ++ (u ++ dr)).Perm (rs.join ++ (dr ++ u)) :=
        List.Perm.append_left _ List.perm_append_comm
      have h4 : (rs.join ++ (dr ++ u)).Perm (List.range n) := by
        simpa [List.append_assoc] using hperm
      have h5 := h3.trans h4
      simpa [List.append_assoc] using h5
    · show List.Sorted (· < ·) ((rs ++ [u]).join ++ [])
      rw [hjoin, List.append_nil]
      exact hsort
    · show ∀ y ∈ (rs ++ [u]).join ++ [], y < n
      rw [hjoin, List.append_nil]
      exact hlt

lemma ringInv_run (nv : Nat) (ops : List RingOp) : RingInv (ringRun nv ops) := by
  have hgen : ∀ s, RingInv s → RingInv (ops.foldl (ringStep nv) s) := by
    induction ops with
    | nil => intro s hs; exact hs
    | cons op ops ih =>
      intro s hs
      exact ih _ (ringInv_step nv s op hs)
  refine hgen ringClear ?_
  unfold RingInv ringClear
  refine ⟨?_, ?_, ?_⟩ <;> simp

/-- Claim C3: over any sequence of bin completions and getDataObject(remove=true)
calls since clear, the returned snapshots, the dropped bins and the still
pending bins partition the completed bins (so each completed bin is returned
exactly once, and the multiset of all returned bins is the completed bins
minus the dropped ones and those not yet polled); moreover the returned bins
are strictly increasing across calls, so after a removing call the next call
only returns newer bins. -/
theorem counter_getDataObject_exactly_once (nv : Nat) (ops : List RingOp) :
    ((ringRun nv ops).returns.join ++ (ringRun nv ops).dropped
        ++ (ringRun nv ops).unread).Perm (List.range (ringRun nv ops).next_id) ∧
      List.Sorted (· < ·) ((ringRun nv ops).returns.join ++ (ringRun nv ops).unread) :=
  ⟨(ringInv_run nv ops).1, (ringInv_run nv ops).2.1⟩

/-- Errors a measurement can store.  abortError stands for the distinguished
IteratorBase::AbortError exception type (TimeTagger.h lines 2030-2034). -/
inductive MeasError where
  | abortError
  | other
  deriving DecidableEq

/-- Measurement lifecycle state visible to the abort protocol: the running
flag, the atomic aborting flag and the error stored for the client thread. -/
structure MeasState where
  running : Bool
  aborting : Bool
  stored_error : Option MeasError

/-- Modelled from the spec: abort() sets aborting to true (spec 4.4; the body of
IteratorBase::abort is not in the sources). -/
def abortOp (m : MeasState) : MeasState := { m with aborting := true }

/-- IteratorBase::checkForAbort (TimeTagger.h lines 2173-2177): if (aborting)
on_abort().  The body of on_abort is not in the sources; modelled from the
spec: it throws the distinguished AbortError, here an Except.error. -/
def checkForAbort (m : MeasState) : Except MeasError Unit :=
  if m.aborting then Except.error MeasError.abortError else Except.ok ()

/-- Modelled from the spec: the dispatcher runs the on_block body and catches
its exception, treating it as stop and storing it so waitUntilFinished
re-raises it on the client thread. -/
def dispatchBlock (m : MeasState) (body : MeasState → Except MeasError Unit) :
    MeasState :=
  match body m with
  | Except.ok _ => m
  | Except.error e => { m with running := false, stored_error := some e }

/-- Modelled from the spec: waitUntilFinished returns true once running has
become false and re-raises the stored error on the client thread. -/
def waitFinished (m : MeasState) : Bool × Option MeasError :=
  (!m.running, m.stored_error)

/-- Claim C4: after abort() sets the aborting flag, an on_block iteration that
observes the flag through checkForAbort raises the distinguished AbortError;
the dispatcher catches it and treats it as stop, and the very next
waitUntilFinished returns true (bounded time: one dispatched block) while
re-raising the AbortError on the client thread. -/
theorem abort_checkForAbort_waitUntilFinished (m : MeasState) :
    checkForAbort (abortOp m) = Except.error MeasError.abortError ∧
      (dispatchBlock (abortOp m) checkForAbort).running = false ∧
      waitFinished (dispatchBlock (abortOp m) checkForAbort)
        = (true, some MeasError.abortError) := by
  refine ⟨rfl, ?_, ?_⟩ <;>
    simp [abortOp, dispatchBlock, checkForAbort, waitFinished]

/-- Measurement state for the bounded-capture protocol: the running flag, the
accumulated capture_duration in picoseconds and the optional auto-stop bound
(max_capture_duration, none when running indefinitely). -/
structure RunState where
  running : Bool
  capture_duration : Nat
  max_capture : Option Nat

/-- Modelled from the spec: startFor(d, clear=true) clears the accumulated
state, arms the auto-stop bound d and starts the measurement (the body of
IteratorBase::startFor, TimeTagger.h line 1964, is not in the sources). -/
def startForOp (d : Nat) (_m : RunState) : RunState := ⟨true, 0, some d⟩

/-- Modelled from the spec: per delivered block of stream time, while running,
capture_duration grows by the processed stream time; reaching the armed bound
stops the measurement and freezes capture_duration exactly at the bound. -/
def processBlock (m : RunState) (len : Nat) : RunState :=
  if m.running then
    match m.max_capture with
    | some d =>
      if d ≤ m.capture_duration + len then ⟨false, d, some d⟩
      else ⟨true, m.capture_duration + len, some d⟩
    | none => ⟨true, m.capture_duration + len, none⟩
  else m

def processBlocks (m : RunState) (blocks : List Nat) : RunState :=
  blocks.foldl processBlock m

/-- IteratorBase::getCaptureDuration (TimeTagger.h line 2016), on the model. -/
def getCaptureDuration (m : RunState) : Nat := m.capture_duration

/-- Modelled from the spec: a successful waitUntilFinished observes that the
measurement stopped. -/
def waitUntilFinishedRun (m : RunState) : Bool := !m.running

lemma processBlocks_stopped (blocks : List Nat) (m : RunState)
    (h : m.running = false) : processBlocks m blocks = m := by
  induction blocks with
  | nil => rfl
  | cons b bs ih =>
    have hb : processBlock m b = m := by
      simp [processBlock, h]
    show (b :: bs).foldl processBlock m = m
    rw [List.foldl_cons, hb]
    exact ih

lemma processBlocks_reaches (d : Nat) (blocks : List Nat) :
    ∀ c : Nat, c < d → d ≤ c + blocks.sum →
      processBlocks ⟨true, c, some d⟩ blocks = ⟨false, d, some d⟩ := by
  induction blocks with
  | nil =>
    intro c h1 h2
    simp at h2
    omega
  | cons b bs ih =>
    intro c h1 h2
    show ((b :: bs).foldl processBlock ⟨true, c, some d⟩) = _
    rw [List.foldl_cons]
    by_cases hb : d ≤ c + b
    · have hstep : processBlock ⟨true, c, some d⟩ b = ⟨false, d, some d⟩ := by
        simp [processBlock, hb]
      rw [hstep]
      exact processBlocks_stopped bs _ rfl
    · have hstep : processBlock ⟨true, c, some d⟩ b = ⟨true, c + b, some d⟩ := by
        simp [processBlock]
        omega
      rw [hstep]
      refine ih (c + b) (by omega) ?_
      simp [List.sum_cons] at h2
      omega

/-- Claim C5: startFor(d, clear=true) followed by processing at least d
picoseconds of stream time stops the measurement at the bound, a successful
waitUntilFinished observes it, and getCaptureDuration returns exactly d. -/
theorem startFor_capture_duration (m : RunState) (d : Nat) (blocks : List Nat)
    (hd : 0 < d) (hstream : d ≤ blocks.sum) :
    getCaptureDuration (processBlocks (startForOp d m) blocks) = d ∧
      waitUntilFinishedRun (processBlocks (startForOp d m) blocks) = true := by
  have h := processBlocks_reaches d blocks 0 hd (by simpa using hstream)
  have hstart : startForOp d m = ⟨true, 0, some d⟩ := rfl
  rw [hstart, h]
  exact ⟨rfl, rfl⟩

theorem startFor_capture_duration_witness :
    0 < (5 : Nat) ∧ (5 : Nat) ≤ ([3, 4] : List Nat).sum ∧
      (getCaptureDuration (processBlocks (startForOp 5 ⟨false, 0, none⟩) [3, 4]) = 5 ∧
        waitUntilFinishedRun (processBlocks (startForOp 5 ⟨false, 0, none⟩) [3, 4])
          = true) :=
  ⟨by decide, by decide,
    startFor_capture_duration ⟨false, 0, none⟩ 5 [3, 4] (by decide) (by decide)⟩

/-- Modelled from the spec: the producer's fence state.  getFence, waitForFence
and sync are pure virtual in TimeTagger.h (lines 420, 431, 441), so the
observable behaviour is modelled: next_fence is the monotonically increasing
counter, last_alloc the most recently allocated fence, stream the sentinels
appended to the tag stream; progress t is the number of fences the dispatcher
has fully processed after waiting t milliseconds (progress 0 is the current
state, probed by a zero timeout) and final the number processed after an
unbounded wait. -/
structure Producer where
  next_fence : Nat
  last_alloc : Nat
  stream : List Nat
  progress : Nat → Nat
  final : Nat

/-- Modelled from the spec: getFence(alloc=true) returns next_fence, appends
its sentinel to the stream and increments the counter; getFence(false)
returns the most recently allocated fence without touching the state. -/
def getFence (p : Producer) (alloc_fence : Bool) : Nat × Producer :=
  if alloc_fence then
    (p.next_fence,
      { p with
          next_fence := p.next_fence + 1
          last_alloc := p.next_fence
          stream := p.stream ++ [p.next_fence] })
  else (p.last_alloc, p)

/-- Modelled from the spec: waitForFence(f, timeout) returns true once the
dispatcher has fully processed the sentinel of f; a negative timeout waits
indefinitely (decided by the eventual progress), zero probes the current
progress; the producer state is returned unchanged. -/
def waitForFence (p : Producer) (f : Nat) (timeout : Int) : Bool × Producer :=
  (if timeout < 0 then decide (f < p.final)
   else decide (f < p.progress timeout.toNat), p)

/-- Modelled from the spec: sync(timeout) is described by its doc comment as a
shortcut for calling getFence and waitForFence at once; written out directly
(allocate a fence, wait for exactly that fence, report whether it passed), to
be compared with the literal composition in claim C6. -/
def sync (p : Producer) (timeout : Int) : Bool × Producer :=
  (if timeout < 0 then decide (p.next_fence < p.final)
   else decide (p.next_fence < p.progress timeout.toNat),
   { p with
       next_fence := p.next_fence + 1
       last_alloc := p.next_fence
       stream := p.stream ++ [p.next_fence] })

/-- Claim C6: sync(timeout) is observably equivalent (same result, same
producer state) to the composition waitForFence(getFence(true), timeout): it
allocates a new fence, waits for exactly that fence and returns true if the
fence passed and false on timeout. -/
theorem sync_eq_getFence_waitForFence (p : Producer) (timeout : Int) :
    sync p timeout
      = waitForFence (getFence p true).2 (getFence p true).1 timeout := by
  simp [sync, getFence, waitForFence]

/-- A concrete stalled producer used to exercise the wait operations: no fence
has been processed yet and none ever completes. -/
def probeProducer : Producer := ⟨0, 0, [], fun _ => 0, 0⟩

/-- Claim C7 counterexample: sync is one of the wait operations, yet on a
timed-out zero-timeout call it leaves the observable producer state changed:
the fence it allocated before waiting remains allocated (next_fence advanced),
so not every wait operation is free of side effects on timeout. -/
theorem sync_timeout_mutates_state :
    (sync probeProducer 0).1 = false ∧
      (sync probeProducer 0).2.next_fence ≠ probeProducer.next_fence := by
  constructor
  · rfl
  · simp [sync, probeProducer]

/-- Modelled from the spec: the observable answers of waitUntilFinished.
bounded is false for a measurement running indefinitely (in which case
waitUntilFinished logs an error and returns immediately); runningAt t tells
whether the measurement is still running after waiting t milliseconds and
finalRunning after an unbounded wait. -/
structure MeasWait where
  bounded : Bool
  runningAt : Nat → Bool
  finalRunning : Bool

/-- Modelled from the spec: waitUntilFinished(timeout) with the millisecond
timeout conventions (negative: infinite, zero: probe); the measurement state
is returned unchanged. -/
def waitUntilFinishedT (w : MeasWait) (timeout : Int) : Bool × MeasWait :=
  (if w.bounded = false ∧ w.runningAt 0 = true then false
   else if timeout < 0 then !w.finalRunning
   else !w.runningAt timeout.toNat, w)

/-- Claim C7 (amended): all waits take integer millisecond timeouts where any
negative value waits indefinitely and zero probes the current state; on
timeout, waitForFence and waitUntilFinished return false with no observable
side effect, while sync's only state change is the fence allocation it
performs before waiting (which a timeout does not undo). -/
theorem wait_timeout_semantics (p : Producer) (f : Nat) (w : MeasWait)
    (t t' : Int) (ht : t < 0) (ht' : t' < 0) :
    waitForFence p f t = waitForFence p f t' ∧
      (waitForFence p f 0).1 = decide (f < p.progress 0) ∧
      (waitForFence p f t).2 = p ∧ (waitForFence p f 0).2 = p ∧
      waitUntilFinishedT w t = waitUntilFinishedT w t' ∧
      (waitUntilFinishedT w t).2 = w ∧ (waitUntilFinishedT w 0).2 = w ∧
      (sync p t).2 = (getFence p true).2 ∧ (sync p 0).2 = (getFence p true).2 := by
  refine ⟨?_, ?_, rfl, rfl, ?_, rfl, rfl, ?_, ?_⟩
  · simp [waitForFence, ht, ht']
  · simp [waitForFence]
  · simp [waitUntilFinishedT, ht, ht']
  · simp [sync, getFence]
  · simp [sync, getFence]

theorem wait_timeout_semantics_witness :
    (-1 : Int) < 0 ∧ (-2 : Int) < 0 ∧
      (waitForFence probeProducer 0 (-1) = waitForFence probeProducer 0 (-2) ∧
        (waitForFence probeProducer 0 0).1 = decide (0 < probeProducer.progress 0) ∧
        (waitForFence probeProducer 0 (-1)).2 = probeProducer ∧
        (waitForFence probeProducer 0 0).2 = probeProducer ∧
        waitUntilFinishedT ⟨true, fun _ => false, false⟩ (-1)
          = waitUntilFinishedT ⟨true, fun _ => false, false⟩ (-2) ∧
        (waitUntilFinishedT ⟨true, fun _ => false, false⟩ (-1)).2
          = ⟨true, fun _ => false, false⟩ ∧
        (waitUntilFinishedT ⟨true, fun _ => false, false⟩ 0).2
          = ⟨true, fun _ => false, false⟩ ∧
        (sync probeProducer (-1)).2 = (getFence probeProducer true).2 ∧
        (sync probeProducer 0).2 = (getFence probeProducer true).2) :=
  ⟨by norm_num, by norm_num,
    wait_timeout_semantics probeProducer 0 ⟨true, fun _ => false, false⟩ (-1) (-2)
      (by norm_num) (by norm_num)⟩

/-- Modelled from the spec: the Coincidences engine for one coincidence group
with the Last timestamp policy (CoincidencesImpl is not in the sources;
Iterators.h lines 494-542 only declare the interface).  lastSeen maps each
channel to its most recent unconsumed event time; emits lists the virtual
tags produced so far. -/
structure CoincState where
  lastSeen : Nat → Option Nat
  emits : List Nat

/-- Modelled from the spec: the group fires when its channel set is fully
covered within the window ending at the current tag time t. -/
def coincCovered (g : List Nat) (w t : Nat) (ls : Nat → Option Nat) : Bool :=
  g.all fun c =>
    match ls c with
    | some s => decide (t ≤ s + w)
    | none => false

/-- Modelled from the spec: per incoming tag on a monitored channel, record it
as last seen, test the group for coverage within the window, and on a fire
emit at the triggering tag's time (Last policy) and consume the participating
events (firing at most once per distinct window covering: re-firing requires
fresh events, which is also what the spec's literal scenario forces, since
without consumption its first four tags would fire twice). -/
def coincStep (g : List Nat) (w : Nat) (st : CoincState) (tag : Nat × Nat) :
    CoincState :=
  if tag.1 ∈ g then
    if coincCovered g w tag.2
        (fun c => if c = tag.1 then some tag.2 else st.lastSeen c) then
      ⟨fun c => if c ∈ g then none
          else if c = tag.1 then some tag.2 else st.lastSeen c,
        st.emits ++ [tag.2]⟩
    else ⟨fun c => if c = tag.1 then some tag.2 else st.lastSeen c, st.emits⟩
  else st

def coincInit : CoincState := ⟨fun _ => none, []⟩

def coincRun (g : List Nat) (w : Nat) (tags : List (Nat × Nat)) : CoincState :=
  tags.foldl (coincStep g w) coincInit

lemma coinc_emits_aux (g : List Nat) (w : Nat) (tags : List (Nat × Nat)) :
    ∀ st : CoincState,
      List.Sublist ((tags.foldl (coincStep g w) st).emits)
        (st.emits ++ (tags.filter fun p => decide (p.1 ∈ g)).map Prod.snd) := by
  induction tags with
  | nil => intro st; simp
  | cons tg tags ih =>
    intro st
    show List.Sublist ((tags.foldl (coincStep g w) (coincStep g w st tg)).emits) _
    refine (ih (coincStep g w st tg)).trans ?_
    by_cases hin : tg.1 ∈ g
    · have hfil : ((tg :: tags).filter fun p => decide (p.1 ∈ g))
          = tg :: (tags.filter fun p => decide (p.1 ∈ g)) := by
        simp [List.filter_cons, hin]
      rw [hfil]
      by_cases hcov : coincCovered g w tg.2
          (fun c => if c = tg.1 then some tg.2 else st.lastSeen c) = true
      · have he : (coincStep g w st tg).emits = st.emits ++ [tg.2] := by
          simp [coincStep, hin, hcov]
        rw [he]
        have heq : st.emits ++ [tg.2]
              ++ (tags.filter fun p => decide (p.1 ∈ g)).map Prod.snd
            = st.emits
              ++ tg.2 :: (tags.filter fun p => decide (p.1 ∈ g)).map Prod.snd := by
          simp
        rw [heq]
        simp only [List.map_cons]
        exact List.Sublist.refl _
      · have he : (coincStep g w st tg).emits = st.emits := by
          simp [coincStep, hin, hcov]
        rw [he]
        simp only [List.map_cons]
        refine List.Sublist.append_left ?_ st.emits
        exact List.sublist_cons_self _ _
    · have he : (coincStep g w st tg).emits = st.emits := by
        simp [coincStep, hin]
      have hfil : ((tg :: tags).filter fun p => decide (p.1 ∈ g))
          = tags.filter fun p => decide (p.1 ∈ g) := by
        simp [List.filter_cons, hin]
      rw [he, hfil]

/-- Claim C8 counterexample: on the spec-modelled engine (group [1, 2], window
1000, Last policy), the full literal stream produces the emit list
[900, 3000]: the continuation fires at the triggering tag time 3000 of the
window covering with times 2600 and 3000, not at 3500 as the claim states. -/
theorem coincidences_literal_scenario_counterexample :
    (coincRun [1, 2] 1000
        [(1, 100), (2, 900), (1, 1500), (2, 2600), (1, 3000), (2, 3500)]).emits
      ≠ [900, 3500] := by decide

/-- Claim C8 (amended): every emit of the modelled group is triggered by a
distinct fresh input tag on one of the group's channels (its emit list is a
sublist of those tags' times), so after a fire the group fires again only
after a channel produces a fresh event; on the literal scenario the first
four tags emit exactly one tag at 900 and the continuation emits exactly one
more, at time 3000 (Last: the time of the tag that completes the covering). -/
theorem coincidences_fresh_event_and_scenario :
    (∀ (g : List Nat) (w : Nat) (tags : List (Nat × Nat)),
        List.Sublist ((coincRun g w tags).emits)
          ((tags.filter fun p => decide (p.1 ∈ g)).map Prod.snd)) ∧
      (coincRun [1, 2] 1000 [(1, 100), (2, 900), (1, 1500), (2, 2600)]).emits
          = [900] ∧
      (coincRun [1, 2] 1000
          [(1, 100), (2, 900), (1, 1500), (2, 2600), (1, 3000), (2, 3500)]).emits
        = [900, 3000] := by
  refine ⟨?_, by decide, by decide⟩
  intro g w tags
  simpa [coincInit] using coinc_emits_aux g w tags coincInit

end Timrtiger
